import Mathlib

/-!
Verification development for the `bpm` ("Basic Package Manager") repository.

The Go source (`src/unnamed/part_000`, the current revision) is shallowly
embedded below: pure string manipulation becomes Lean functions on
`String`/`List Char`; external `git` invocations become oracle inputs (their
raw outputs, or `Option`/`Except` values recording success or failure); a
`log.Panic` becomes `Except.error ()` (fatal abort of the whole run); file
trees become an inductive rose tree.  Definitions keep the source's names.
-/

namespace Bpm

/-! ## Go string helpers (strings.Trim / TrimLeft / TrimRight / HasSuffix) -/

/-- Model of Go `strings.TrimLeft(s, cutset)` on character lists:
drop leading characters that are members of the cutset. -/
def trimLeftCut (cut : List Char) (cs : List Char) : List Char :=
  cs.dropWhile (fun c => decide (c ∈ cut))

/-- Model of Go `strings.TrimRight(s, cutset)` on character lists. -/
def trimRightCut (cut : List Char) (cs : List Char) : List Char :=
  (trimLeftCut cut cs.reverse).reverse

/-- Model of Go `strings.Trim(s, cutset)` on character lists. -/
def trimCut (cut : List Char) (cs : List Char) : List Char :=
  trimRightCut cut (trimLeftCut cut cs)

/-- Go `strings.Trim` on `String`. -/
def goTrim (s cut : String) : String := String.mk (trimCut cut.toList s.toList)

/-- Go `strings.TrimLeft` on `String`. -/
def goTrimLeft (s cut : String) : String := String.mk (trimLeftCut cut.toList s.toList)

/-- Go `strings.TrimRight` on `String`. -/
def goTrimRight (s cut : String) : String := String.mk (trimRightCut cut.toList s.toList)

/-- Go `strings.TrimSpace` (restricted to the ASCII whitespace characters that
occur in `git` output). -/
def goTrimSpace (s : String) : String := goTrim s " \t\n\r"

/-- Go `strings.HasSuffix(s, suffix)`. -/
def goHasSuffix (s suf : String) : Bool :=
  List.isPrefixOf suf.toList.reverse s.toList.reverse

/-! ## The package pattern (`getPackagePattern`, part_000 lines 201-207)

The source compiles the regular expression
`^([^/]+\.[^.]{1,6}/[^/]+/[^/]+)` and uses `MatchString`/`FindString` on it.
`patternFind` below implements exactly this anchored pattern with Go's
(Perl-style, leftmost-first, greedy-with-backtracking) matching discipline:

* `[^/]+` before the literal dot is greedy, longest-first, and backtracks —
  `tryAt` is attempted at every split position, longest host first;
* `[^.]{1,6}` after the dot is greedy (lengths 6 down to 1) and backtracks
  (`tryTldFrom`); its characters may be any non-dot characters;
* the two final `[^/]+/`-delimited segments need no backtracking: a run of
  non-slash characters followed by a mandatory `/` (or end of pattern) has a
  unique viable extent, namely the maximal run (`trySegs`).

`FindString` returns the matched substring; with the `^` anchor the match, if
any, is a prefix of the input. -/

/-- Match the tail `[^/]+/[^/]+` of the pattern against `cs`; return the
matched characters. -/
def trySegs (cs : List Char) : Option (List Char) :=
  let s1 := cs.takeWhile (fun c => c ≠ '/')
  let r1 := cs.drop s1.length
  match r1 with
  | '/' :: r2 =>
    let s2 := r2.takeWhile (fun c => c ≠ '/')
    if s1 ≠ [] ∧ s2 ≠ [] then some (s1 ++ '/' :: s2) else none
  | _ => none

/-- Match `[^.]{1,6}/` followed by the two segments, trying TLD length `k`
first and backtracking down to length 1. -/
def tryTldFrom : Nat → List Char → Option (List Char)
  | 0, _ => none
  | k + 1, cs =>
    let t := cs.take (k + 1)
    let rest := cs.drop (k + 1)
    match rest with
    | '/' :: r2 =>
      if t.length = k + 1 ∧ t.all (fun c => c ≠ '.') then
        match trySegs r2 with
        | some segs => some (t ++ '/' :: segs)
        | none => tryTldFrom k cs
      else tryTldFrom k cs
    | _ => tryTldFrom k cs

/-- Try host length `i`: the first `i` characters form `[^/]+`, the next
character must be the literal `.`. -/
def tryAt (cs : List Char) (i : Nat) : Option (List Char) :=
  let h := cs.take i
  let rest := cs.drop i
  if h ≠ [] ∧ h.all (fun c => c ≠ '/') then
    match rest with
    | '.' :: afterDot =>
      match tryTldFrom 6 afterDot with
      | some t => some (h ++ '.' :: t)
      | none => none
    | _ => none
  else none

/-- Try all host lengths, longest first (greedy `[^/]+`). -/
def findFrom : Nat → List Char → Option (List Char)
  | 0, _ => none
  | i + 1, cs =>
    match tryAt cs (i + 1) with
    | some r => some r
    | none => findFrom i cs

/-- `pattern.FindString` for `^([^/]+\.[^.]{1,6}/[^/]+/[^/]+)`: `none` when
`MatchString` is false, `some m` (the matched prefix) otherwise. -/
def patternFind (s : String) : Option String :=
  (findFrom s.toList.length s.toList).map String.mk

/-! ## `getImports` (part_000 lines 209-236)

The source iterates a `map[string][]*ast.ImportSpec` (file name → import
specs), trims surrounding quotes from each import path literal, keeps those
matched by the pattern (truncated to the matched prefix by `FindString`),
deduplicates them in a map, and finally returns the keys that differ from the
current package.  Go map iteration order is unspecified; the model keeps
first-insertion order, which is irrelevant to the claims (they are about the
underlying set). -/

/-- One file's worth of import processing: fold the matched, truncated,
deduplicated identifiers into the accumulator. -/
def getImportsFold (acc : List String) (vals : List String) : List String :=
  vals.foldl
    (fun acc v =>
      let v := goTrim v "\""
      match patternFind v with
      | some m => if acc.contains m then acc else acc ++ [m]
      | none => acc)
    acc

/-- `getImports`: `importMap` associates each file name with the raw import
path literals appearing in it. -/
def getImports (importMap : List (String × List String)) (currentPkg : String) :
    List String :=
  let keys := importMap.foldl (fun acc kv => getImportsFold acc kv.2) []
  (keys.map (fun k => goTrim k "\"")).filter (fun k => k ≠ currentPkg)

/-! ## Data model (`bpmPackage`, `bpmEntry`, part_000 lines 238-248)

`bpmEntry.Dependencies` is a `map[string]*bpmEntry` in Go; it is modelled as
an association list (`List (String × bpmEntry)`).  The lockfile graphs built
by the program always hold non-nil maps (`make` in `installPackages`,
assignment in `resolveDependencies`), so the nil/empty-map distinction is not
modelled. -/

/-- A dependency entry: `url`, `branch`, `commit` (strings, `""` = absent)
and the nested dependency mapping. -/
inductive bpmEntry where
  | mk (url branch commit : String) (dependencies : List (String × bpmEntry))

/-- `url` field of an entry. -/
def bpmEntry.url : bpmEntry → String
  | .mk u _ _ _ => u

/-- `branch` field of an entry. -/
def bpmEntry.branch : bpmEntry → String
  | .mk _ b _ _ => b

/-- `commit` field of an entry. -/
def bpmEntry.commit : bpmEntry → String
  | .mk _ _ c _ => c

/-- `dependencies` field of an entry. -/
def bpmEntry.dependencies : bpmEntry → List (String × bpmEntry)
  | .mk _ _ _ d => d

/-- The lockfile root: the project's own package identifier plus its direct
dependency mapping. -/
structure bpmPackage where
  mk ::
  package : String
  dependencies : List (String × bpmEntry)

/-! ## Version-control adapter output parsing (part_000 lines 438-450)

`getCurrentBranch` runs `git branch`, applies the regular expression
`\* ([^\n]+)\n` with `Find` (leftmost match of a literal `"* "`, then one or
more non-newline characters, then a newline), and trims `"* "` on the left
and `"\n "` on the right.  `getCurrentCommitHash` runs `git rev-parse HEAD`
and right-trims `"\n "`.  Both are modelled as functions of the raw command
output. -/

/-- Leftmost match of `\* ([^\n]+)\n` in a character list (`regexp.Find`);
`none` when there is no match. -/
def findBranchMatch : List Char → Option (List Char)
  | [] => none
  | c :: rest =>
    if c = '*' then
      match rest with
      | ' ' :: rest2 =>
        let run := rest2.takeWhile (fun ch => ch ≠ '\n')
        if run ≠ [] ∧ rest2.drop run.length ≠ [] then
          some ('*' :: ' ' :: (run ++ ['\n']))
        else findBranchMatch rest
      | _ => findBranchMatch rest
    else findBranchMatch rest

/-- `getCurrentBranch`, as a function of the raw `git branch` output.
Returns `""` when no branch line matches (e.g. detached HEAD). -/
def getCurrentBranch (out : String) : String :=
  let m := match findBranchMatch out.toList with
           | some cs => String.mk cs
           | none => ""
  goTrimRight (goTrimLeft m "* ") "\n "

/-- `getCurrentCommitHash`, as a function of the raw `git rev-parse HEAD`
output. -/
def getCurrentCommitHash (out : String) : String :=
  goTrimRight out "\n "

/-! ## Concurrent fetcher (`clonePackage` / `installPackages`,
part_000 lines 250-282 and 332-355)

A clone task's interaction with the outside world is captured by an oracle
`outcome : String → Option (String × String)`: for each package identifier,
`none` means `git clone` exited non-zero (`runCmd` calls `log.Panic`, the
panic unwinds `clonePackage`), and `some (branchOut, hashOut)` means the
clone succeeded and the subsequent `git branch` / `git rev-parse HEAD`
invocations produced those raw outputs.

`clonePackage` installs a deferred `recover`: on panic it sends
`{pkg, entry: nil}` on its channel; on success the entry sent first is the
one the join loop receives (the deferred nil send lands in the buffer after
that receive and is never read).  The join loop in `installPackages` receives
exactly one result per channel, in launch order (`channelList` is a slice),
and keeps only results with a non-nil entry.  The model returns the received
value directly. -/

/-- `cloneRepo` wrapped in `runCmd`'s panic behaviour: `Except.error ()` is
the panic that `clonePackage`'s deferred `recover` will absorb. -/
def cloneRepo (outcome : Option (String × String)) : Except Unit (String × String) :=
  match outcome with
  | none => Except.error ()
  | some o => Except.ok o

/-- `clonePackage`: the channel value the join loop receives for `pkg`
(`none` = the nil entry sent by the recovery path). -/
def clonePackage (pkg : String) (outcome : Option (String × String)) : Option bpmEntry :=
  match cloneRepo outcome with
  | Except.error _ => none
  | Except.ok bh =>
    some (bpmEntry.mk ("https://" ++ pkg) (getCurrentBranch bh.1) (getCurrentCommitHash bh.2) [])

/-- `installPackages`: one task per identifier, joined in launch order; tasks
whose entry is nil contribute nothing. -/
def installPackages (packages : List String) (outcome : String → Option (String × String)) :
    List (String × bpmEntry) :=
  match packages with
  | [] => []
  | pkg :: rest =>
    match clonePackage pkg (outcome pkg) with
    | some e => (pkg, e) :: installPackages rest outcome
    | none => installPackages rest outcome

/-! ## Reconciler (`pullRepo`, part_000 lines 405-431)

A vendored repository is modelled by its observable `git` state:
the current branch name (`git branch`, `""` when detached), the current HEAD
commit (`git rev-parse HEAD`), the branch-tip map (what commit
`git checkout <branch>` lands on), and the commit whose tree the working
directory's paths currently reflect.

The checkout commands mirror the source exactly:
* `checkoutBranch` runs `git checkout <branch>` — it moves both the branch
  pointer and HEAD (and the working tree) to the branch tip;
* `checkoutCommit` runs `git checkout <commit> .` — a *pathspec* checkout
  that restores the working tree's paths at that commit but moves neither the
  branch pointer nor HEAD (spec §4.4 documents exactly this). -/

/-- Observable state of one vendored git checkout. -/
structure RepoState where
  mk ::
  branch : String
  head : String
  tip : String → String
  worktree : String

/-- A checkout operation performed by the reconciler. -/
inductive GitOp where
  | coBranch (b : String)
  | coCommit (c : String)
deriving DecidableEq

/-- `git checkout <branch>`. -/
def checkoutBranch (s : RepoState) (b : String) : RepoState :=
  RepoState.mk b (s.tip b) s.tip (s.tip b)

/-- `git checkout <commit> .` (pathspec checkout: HEAD and branch unchanged). -/
def checkoutCommit (s : RepoState) (c : String) : RepoState :=
  RepoState.mk s.branch s.head s.tip c

/-- The fields of one lockfile entry that `pullRepo` reads and writes
(its nested dependencies are untouched by `pullRepo` itself). -/
structure PullEntry where
  mk ::
  url : String
  branch : String
  commit : String
deriving DecidableEq

/-- `pullRepo`: read the current branch, backfill an empty pinned branch,
check out on drift; then read the current commit (after any branch
checkout), backfill an empty pinned commit, check out on drift.  Returns the
updated entry, the updated repository state, and the checkouts performed. -/
def pullRepo (e : PullEntry) (s : RepoState) : PullEntry × RepoState × List GitOp :=
  let branch := s.branch
  let e1 := if e.branch = "" then PullEntry.mk e.url branch e.commit else e
  let r1 : RepoState × List GitOp :=
    if branch ≠ e1.branch then (checkoutBranch s e1.branch, [GitOp.coBranch e1.branch])
    else (s, [])
  let commit := r1.1.head
  let e2 := if e1.commit = "" then PullEntry.mk e1.url e1.branch commit else e1
  let r2 : RepoState × List GitOp :=
    if commit ≠ e2.commit then (checkoutCommit r1.1 e2.commit, r1.2 ++ [GitOp.coCommit e2.commit])
    else (r1.1, r1.2)
  (e2, r2.1, r2.2)

/-- Two successive `pullRepo` runs on the same entry and checkout, with no
external change in between; the operation list is that of the second run. -/
def pullRepoTwice (e : PullEntry) (s : RepoState) : PullEntry × RepoState × List GitOp :=
  let r1 := pullRepo e s
  pullRepo r1.1 r1.2.1

/-! ## Reconciler recursion order (`pullPackages`, part_000 lines 284-315)

`pullPackages` launches one goroutine (`pullPackage`) per entry of the
current level, then joins them one at a time; *inside* the join loop, right
after receiving entry `pkg`'s result, it synchronously recurses into
`pullPackages(data.Dependencies, pkgDir)` before joining the remaining
siblings.  `pullPackagesTrace` records the resulting order of observable
pinning events: each event is the vendor path (as a list of package
identifiers) of the entry whose pinning the parent has just observed,
traversed in join order.  Go map iteration order is unspecified, so the
input list order stands for an arbitrary join order; the claims quantify over
(or are refuted at) particular orders. -/

/-- The join-order trace of `pullPackages` started at vendor path `pre`. -/
def pullPackagesTrace : List String → List (String × bpmEntry) → List (List String)
  | _, [] => []
  | pre, (pkg, bpmEntry.mk _ _ _ ds) :: rest =>
    (pre ++ [pkg]) :: (pullPackagesTrace (pre ++ [pkg]) ds ++ pullPackagesTrace pre rest)
termination_by _ l => sizeOf l
decreasing_by
  all_goals simp_wf
  all_goals omega

/-- The property claimed of a trace: once any event of depth ≥ 2 (a nested
dependency) occurs, no depth-1 event (a sibling of the current level)
follows — i.e. the whole level is joined before any recursion. -/
def levelJoinedFirst : List (List String) → Bool
  | [] => true
  | q :: rest =>
    if 2 ≤ q.length then (rest.all (fun r => 2 ≤ r.length)) && levelJoinedFirst rest
    else levelJoinedFirst rest

/-! ## Lockfile codec (part_000 lines 243-248, 452-460, 468-479)

`jsonEncodeIndented` marshals a `bpmPackage` with `encoding/json`;
`readDataFile` unmarshals.  The struct tags are `json:"package"`,
`json:"dependencies"` and, on entries, `json:"url,omitempty"`,
`json:"branch,omitempty"`, `json:"commit,omitempty"`,
`json:"dependencies"`.  The codec is modelled at the JSON-value level (the
indentation of the concrete syntax carries no information): `omitempty`
drops a string field exactly when it is `""`; unmarshalling takes a missing
string field to `""` and a missing `dependencies` field to the empty
mapping, and fails on a type mismatch.  The encoder only ever emits objects
with distinct keys, so first-match lookup models Go field lookup
faithfully. -/

/-- JSON values (the shapes this codec produces and consumes). -/
inductive Json where
  | str (s : String)
  | obj (fields : List (String × Json))

/-- An `omitempty` string field: present exactly when non-empty. -/
def optField (name val : String) : List (String × Json) :=
  if val = "" then [] else [(name, Json.str val)]

mutual

/-- Marshal one dependency entry. -/
def encodeEntry : bpmEntry → Json
  | bpmEntry.mk u b c ds =>
    Json.obj (optField "url" u ++ optField "branch" b ++ optField "commit" c ++
      [("dependencies", Json.obj (encodeDeps ds))])

/-- Marshal a dependency mapping. -/
def encodeDeps : List (String × bpmEntry) → List (String × Json)
  | [] => []
  | (k, e) :: rest => (k, encodeEntry e) :: encodeDeps rest

end

/-- Marshal the lockfile root (`package` has no `omitempty`). -/
def encodePackage (p : bpmPackage) : Json :=
  Json.obj [("package", Json.str p.package),
            ("dependencies", Json.obj (encodeDeps p.dependencies))]

mutual

/-- Unmarshal an object's fields into a dependency entry, starting from the
zero value (`""` strings, empty mapping) — exactly `encoding/json`'s
behaviour: keys are consumed in order, a matching key assigns the field
(later keys overwrite), unknown keys are ignored, a type mismatch fails,
and fields never mentioned keep their zero value. -/
def decodeEntryInto : bpmEntry → List (String × Json) → Option bpmEntry
  | acc, [] => some acc
  | acc, (k, v) :: rest =>
    if k = "url" then
      match v with
      | Json.str s => decodeEntryInto (bpmEntry.mk s acc.branch acc.commit acc.dependencies) rest
      | _ => none
    else if k = "branch" then
      match v with
      | Json.str s => decodeEntryInto (bpmEntry.mk acc.url s acc.commit acc.dependencies) rest
      | _ => none
    else if k = "commit" then
      match v with
      | Json.str s => decodeEntryInto (bpmEntry.mk acc.url acc.branch s acc.dependencies) rest
      | _ => none
    else if k = "dependencies" then
      match v with
      | Json.obj dfs =>
        (match decodeDeps dfs with
         | some ds => decodeEntryInto (bpmEntry.mk acc.url acc.branch acc.commit ds) rest
         | none => none)
      | _ => none
    else decodeEntryInto acc rest

/-- Unmarshal a dependency mapping. -/
def decodeDeps : List (String × Json) → Option (List (String × bpmEntry))
  | [] => some []
  | (k, j) :: rest =>
    match decodeEntry j, decodeDeps rest with
    | some e, some ds => some ((k, e) :: ds)
    | _, _ => none

/-- Unmarshal one dependency entry. -/
def decodeEntry : Json → Option bpmEntry
  | Json.obj fs => decodeEntryInto (bpmEntry.mk "" "" "" []) fs
  | _ => none

end

/-- Unmarshal the lockfile root's fields, starting from the zero value. -/
def decodePackageInto : bpmPackage → List (String × Json) → Option bpmPackage
  | acc, [] => some acc
  | acc, (k, v) :: rest =>
    if k = "package" then
      match v with
      | Json.str s => decodePackageInto (bpmPackage.mk s acc.dependencies) rest
      | _ => none
    else if k = "dependencies" then
      match v with
      | Json.obj dfs =>
        (match decodeDeps dfs with
         | some ds => decodePackageInto (bpmPackage.mk acc.package ds) rest
         | none => none)
      | _ => none
    else decodePackageInto acc rest

/-- Unmarshal the lockfile root. -/
def decodePackage : Json → Option bpmPackage
  | Json.obj fs => decodePackageInto (bpmPackage.mk "" []) fs
  | _ => none

/-! ## Lockfile locations (part_000 lines 119-128, 462-466)

`doInstall` reads the lockfile from `filepath.Join(dir, dependencyFilename)`,
but `writeDataFile` hands the bare relative name `dependencyFilename` to
`ioutil.WriteFile`, which the operating system resolves against the process
working directory — not against the project root `dir`. -/

/-- The fixed lockfile filename. -/
def dependencyFilename : String := "bpm.json"

/-- `filepath.Join` for an absolute directory and a bare filename. -/
def filepathJoin (dir name : String) : String := dir ++ "/" ++ name

/-- The absolute path `doInstall`/`doInit` read from and test for existence:
`filepath.Join(dir, dependencyFilename)`. -/
def readDataFilePath (dir : String) : String := filepathJoin dir dependencyFilename

/-- The absolute path `writeDataFile` actually writes to: the bare filename
resolved against the process working directory `cwd`. -/
def writeDataFilePath (cwd : String) : String := filepathJoin cwd dependencyFilename

/-! ## Project identity (`getCurrentPackage`, part_000 lines 485-503, and
`runCmd`, lines 379-403)

`getCurrentPackage` runs `git remote get-url origin` through `runCmd` with
`getOutput = true`; `runCmd` calls `log.Panic` when the command fails
(non-zero exit — e.g. there is no `origin` remote), which aborts the whole
run.  Only when the command *succeeds* does the function reach the non-fatal
paths: a `url.Parse` error or a package-pattern mismatch each print a message
and return `""`, and `doInit`/`doRebuild` treat `""` as "nothing to do" and
return normally without writing. -/

/-- Result of an external command: its combined output, or a non-zero exit. -/
inductive CmdOut where
  | ok (out : String)
  | fail

/-- `runCmd` with `getOutput = true`: `log.Panic` (fatal, `Except.error ()`)
when the command fails. -/
def runCmdOutput : CmdOut → Except Unit String
  | CmdOut.ok o => Except.ok o
  | CmdOut.fail => Except.error ()

/-- The identifier candidate `getCurrentPackage` builds from the parsed URL:
`u.Hostname() + u.RawPath`, space-trimmed, with a `.git` suffix stripped. -/
def remoteCandidate (host rawPath : String) : String :=
  let pkg := goTrimSpace (host ++ rawPath)
  if goHasSuffix pkg ".git" then String.mk (pkg.toList.take (pkg.toList.length - 4))
  else pkg

/-- `getCurrentPackage`: `remote` is the outcome of
`git remote get-url origin`; `parsed` is the outcome of `url.Parse` on its
output (`none` = parse error; `some (hostname, rawPath)` otherwise).
`Except.error ()` is `log.Panic` inside `runCmd`. -/
def getCurrentPackage (remote : CmdOut) (parsed : Option (String × String)) :
    Except Unit String :=
  match runCmdOutput remote with
  | Except.error _ => Except.error ()
  | Except.ok _ =>
    match parsed with
    | none => Except.ok ""
    | some hp =>
      match patternFind (remoteCandidate hp.1 hp.2) with
      | some m => Except.ok m
      | none => Except.ok ""

/-- The write-relevant skeleton of `doInit` (part_000 lines 84-101): returns
whether a lockfile is written; `Except.error ()` propagates a panic.
(`doRebuild`, lines 134-148, has the same `pkg = "" → return` shape.) -/
def doInitWrites (lockExists : Bool) (pkgResult : Except Unit String) : Except Unit Bool :=
  if lockExists then Except.ok false
  else
    match pkgResult with
    | Except.error _ => Except.error ()
    | Except.ok pkg => if pkg = "" then Except.ok false else Except.ok true

/-! ## Source scanner (`getAllSourceFiles`, part_000 lines 172-199)

The directory tree is a rose tree; `getAllSourceFiles` mirrors the source:
iterate the directory's entries in order; a subdirectory named `vendor` is
skipped, any other subdirectory is recursed into; a non-directory entry is
kept iff its joined path ends in `".go"` (for non-empty entry names that is
equivalent to the entry name ending in `".go"`, since the preceding character
of the joined path is the separator `/`).  Paths are modelled as lists of
path components. -/

/-- A directory entry: a regular file or a subdirectory. -/
inductive FsEntry where
  | file (name : String)
  | dir (name : String) (children : List FsEntry)

/-- The folder name the scanner skips. -/
def vendorFolderName : String := "vendor"

/-- `getAllSourceFiles`, returning paths relative to the scanned root. -/
def getAllSourceFiles : List FsEntry → List (List String)
  | [] => []
  | FsEntry.file n :: rest =>
    (if goHasSuffix n ".go" then [[n]] else []) ++ getAllSourceFiles rest
  | FsEntry.dir n cs :: rest =>
    (if n = vendorFolderName then []
     else (getAllSourceFiles cs).map (fun p => n :: p)) ++ getAllSourceFiles rest
termination_by l => sizeOf l
decreasing_by
  all_goals simp_wf
  all_goals omega

/-- Every regular file's path in the tree, with no exclusions at all: every
subdirectory (vendor included) is entered, every file (whatever its name) is
listed. -/
def allFilePaths : List FsEntry → List (List String)
  | [] => []
  | FsEntry.file n :: rest => [n] :: allFilePaths rest
  | FsEntry.dir n cs :: rest =>
    (allFilePaths cs).map (fun p => n :: p) ++ allFilePaths rest
termination_by l => sizeOf l
decreasing_by
  all_goals simp_wf
  all_goals omega

/-- The claim's characterisation of a kept path: the file's own name ends in
`".go"` and no directory component on the way down is named `vendor`. -/
def goodPath : List String → Bool
  | [] => false
  | [n] => goHasSuffix n ".go"
  | n :: rest => (n ≠ vendorFolderName) && goodPath rest

/-! ## Concrete inputs used by counterexamples and witnesses -/

/-- A vendored checkout sitting on branch `master` whose tip (and HEAD) is
commit `aaa`. -/
def cexRepo : RepoState := RepoState.mk "master" "aaa" (fun _ => "aaa") "aaa"

/-- A lockfile entry pinning branch `master` at commit `bbb` — an older
commit than the branch tip `aaa`. -/
def cexEntry : PullEntry := PullEntry.mk "https://a.bc/d/e" "master" "bbb"

/-- A two-entry level: sibling `a` has a nested dependency `c`; sibling `b`
is a leaf. -/
def cexDeps : List (String × bpmEntry) :=
  [("a", bpmEntry.mk "" "" "" [("c", bpmEntry.mk "" "" "" [])]),
   ("b", bpmEntry.mk "" "" "" [])]

/-- The import-string inputs of the pattern-matching-boundary property. -/
def boundaryImports : List (String × List String) :=
  [("main.go", ["example.com/org/repo/sub/pkg", "fmt", "example.com/org/repo"])]

/-! # Theorems -/

/-! ## Helper lemmas -/

/-- Right-trimming leaves something whenever some character escapes the
cutset. -/
theorem trimRightCut_ne_nil (cut cs : List Char) (h : ∃ c ∈ cs, c ∉ cut) :
    trimRightCut cut cs ≠ [] := by
  obtain ⟨c, hc, hnc⟩ := h
  intro hnil
  have h1 : trimLeftCut cut cs.reverse = [] := by
    have := congrArg List.reverse hnil
    simpa [trimRightCut] using this
  rw [trimLeftCut, List.dropWhile_eq_nil_iff] at h1
  have := h1 c (by simpa using hc)
  simp_all

/-- Keys of the fetcher's result all come from the requested package list. -/
theorem installPackages_fst_subset (ps : List String)
    (oc : String → Option (String × String)) (x : String)
    (h : x ∈ (installPackages ps oc).map Prod.fst) : x ∈ ps := by
  induction ps with
  | nil => simp [installPackages] at h
  | cons p rest ih =>
    rw [installPackages] at h
    cases hcp : clonePackage p (oc p) with
    | none => rw [hcp] at h; exact List.mem_cons_of_mem _ (ih h)
    | some e =>
      rw [hcp] at h
      rcases List.mem_cons.mp h with h1 | h1
      · simp at h1; simp [h1]
      · exact List.mem_cons_of_mem _ (ih h1)

/-! ## C3 — lockfile location (code bug)

`doInstall` reads the lockfile from `filepath.Join(dir, "bpm.json")` but
`writeDataFile` writes to the bare relative name `"bpm.json"`, resolved
against the process working directory; with project root `/proj` and working
directory `/tmp`, `install` reads `/proj/bpm.json` and writes
`/tmp/bpm.json`. -/

/-- C3: the persisted document's location is *not* project-root relative:
with project root `/proj` and process working directory `/tmp`, the path
`writeDataFile` writes differs from the project-root path the same command
reads from. -/
theorem writeDataFile_ignores_project_root :
    writeDataFilePath "/tmp" = "/tmp/bpm.json" ∧
    readDataFilePath "/proj" = "/proj/bpm.json" ∧
    writeDataFilePath "/tmp" ≠ readDataFilePath "/proj" := by
  refine ⟨rfl, rfl, ?_⟩
  decide

/-! ## C4 — unresolvable project identity -/

/-- C4 counterexample: when the source-control remote query itself fails
(there is no remote), `runCmd` panics inside `getCurrentPackage`, so `init`
aborts fatally instead of returning normally with an empty result. -/
theorem getCurrentPackage_fatal_on_failed_remote :
    doInitWrites false (getCurrentPackage CmdOut.fail none) = Except.error () := rfl

/-- C4 (amended): when the remote *query succeeds* but its URL fails to
parse, or parses to something that does not match the host-qualified
pattern, `getCurrentPackage` returns the empty identifier and `doInit`
returns normally without writing a lockfile; when the remote query itself
fails, `runCmd` panics and the run aborts. -/
theorem getCurrentPackage_no_identity_nonfatal (o host rawPath : String)
    (hnm : patternFind (remoteCandidate host rawPath) = none) :
    getCurrentPackage (CmdOut.ok o) (some (host, rawPath)) = Except.ok "" ∧
    getCurrentPackage (CmdOut.ok o) none = Except.ok "" ∧
    doInitWrites false (Except.ok "") = Except.ok false ∧
    (∀ parsed, getCurrentPackage CmdOut.fail parsed = Except.error ()) := by
  refine ⟨?_, rfl, rfl, fun _ => rfl⟩
  simp [getCurrentPackage, runCmdOutput, hnm]

/-- C4 witness: a remote URL whose parsed hostname+rawPath (`github.com`,
Go's `u.RawPath` being empty for such URLs) does not match the pattern. -/
theorem getCurrentPackage_no_identity_nonfatal_witness :
    getCurrentPackage (CmdOut.ok "https://github.com/x/y.git\n")
        (some ("github.com", "")) = Except.ok "" :=
  (getCurrentPackage_no_identity_nonfatal "https://github.com/x/y.git\n"
    "github.com" "" (by decide)).1

/-! ## C5 — partial-failure isolation in discovery -/

/-- C5: the fetcher's resulting entry mapping has exactly the identifiers
whose clone succeeded, in launch order: a failing clone contributes no
entry and aborts neither its siblings nor the run (the model of
`installPackages` is a total function — the panic of a failing `cloneRepo`
is absorbed by `clonePackage`'s deferred `recover`). -/
theorem installPackages_keys (ps : List String)
    (oc : String → Option (String × String)) :
    (installPackages ps oc).map Prod.fst = ps.filter (fun p => (oc p).isSome) := by
  induction ps with
  | nil => rfl
  | cons p rest ih =>
    cases h : oc p with
    | none => simp [installPackages, clonePackage, cloneRepo, h, ih]
    | some bh => simp [installPackages, clonePackage, cloneRepo, h, ih]

/-! ## C8 — discovery excludes self -/

/-- C8: the current package's own identifier is never returned by the
matcher and never appears as a key of the fetcher's dependency mapping,
whatever the import strings (including sub-paths of the identifier, which
truncate to it) and whatever the clone outcomes. -/
theorem getImports_excludes_self (importMap : List (String × List String))
    (currentPkg : String) (oc : String → Option (String × String)) :
    currentPkg ∉ getImports importMap currentPkg ∧
    currentPkg ∉ (installPackages (getImports importMap currentPkg) oc).map Prod.fst := by
  have h1 : currentPkg ∉ getImports importMap currentPkg := by
    intro hmem
    have := (List.mem_filter.mp hmem).2
    simp at this
  exact ⟨h1, fun hmem => h1 (installPackages_fst_subset _ _ _ hmem)⟩

/-! ## C9 — successfully fetched entries have a non-empty commit -/

/-- C9: a clone task that succeeds — `git clone` exits zero and the
subsequent `git rev-parse HEAD` prints an actual hash (some character other
than newline or blank) — yields an entry in the fetcher's mapping whose
`commit` field is non-empty, regardless of the `git branch` output (which
may well produce an empty branch name, e.g. on detached HEAD). -/
theorem installPackages_commit_nonempty (ps : List String)
    (oc : String → Option (String × String)) (pkg bo ho : String)
    (hmem : pkg ∈ ps) (hoc : oc pkg = some (bo, ho))
    (hch : ∃ c ∈ ho.toList, ¬(c = '\n' ∨ c = ' ')) :
    (pkg, bpmEntry.mk ("https://" ++ pkg) (getCurrentBranch bo)
        (getCurrentCommitHash ho) []) ∈ installPackages ps oc ∧
    getCurrentCommitHash ho ≠ "" := by
  constructor
  · induction ps with
    | nil => simp at hmem
    | cons p rest ih =>
      rw [installPackages]
      rcases List.mem_cons.mp hmem with h1 | h1
      · subst h1
        rw [hoc]
        simp [clonePackage, cloneRepo]
      · cases hcp : clonePackage p (oc p) with
        | none => exact ih h1
        | some e => exact List.mem_cons_of_mem _ (ih h1)
  · have hne : trimRightCut ("\n ".toList) ho.toList ≠ [] := by
      apply trimRightCut_ne_nil
      obtain ⟨c, hc, hnc⟩ := hch
      refine ⟨c, hc, ?_⟩
      intro hmem2
      apply hnc
      simpa using hmem2
    intro hempty
    apply hne
    have := congrArg String.toList hempty
    simpa [getCurrentCommitHash, goTrimRight] using this

/-- C9 witness: a single successful clone whose `rev-parse` output is
`"abc\n"` produces the entry pinned at commit `"abc"`. -/
theorem installPackages_commit_nonempty_witness :
    ("a.bc/d/e", bpmEntry.mk "https://a.bc/d/e" (getCurrentBranch "* master\n")
        (getCurrentCommitHash "abc\n") [])
      ∈ installPackages ["a.bc/d/e"] (fun _ => some ("* master\n", "abc\n")) ∧
    getCurrentCommitHash "abc\n" ≠ "" :=
  installPackages_commit_nonempty ["a.bc/d/e"] (fun _ => some ("* master\n", "abc\n"))
    "a.bc/d/e" "* master\n" "abc\n" (by decide) rfl (by decide)

/-! ## C7 — pattern matching boundary -/

/-- C7: on the import strings `example.com/org/repo/sub/pkg`, `fmt` and
`example.com/org/repo`, with any current package other than
`example.com/org/repo`, the matcher returns exactly
`example.com/org/repo`: the deep sub-path is truncated to its first three
segments and collapses with the exact path into one identifier, and the
short standard-library path is excluded. -/
theorem getImports_boundary (currentPkg : String)
    (h : currentPkg ≠ "example.com/org/repo") :
    getImports boundaryImports currentPkg = ["example.com/org/repo"] := by
  have hstep : getImports boundaryImports currentPkg
      = ["example.com/org/repo"].filter (fun k => k ≠ currentPkg) := rfl
  rw [hstep]
  simp [Ne.symm h]

/-- C7 witness at a concrete current package. -/
theorem getImports_boundary_witness :
    getImports boundaryImports "my.host/me/proj" = ["example.com/org/repo"] :=
  getImports_boundary "my.host/me/proj" (by decide)

/-! ## C10 — the scanner keeps exactly the non-vendored `.go` files -/

/-- No path produced by `allFilePaths` is empty. -/
theorem allFilePaths_ne_nil (es : List FsEntry) : ∀ p ∈ allFilePaths es, p ≠ [] := by
  match es with
  | [] => simp [allFilePaths]
  | FsEntry.file n :: rest =>
    intro p hp
    rw [allFilePaths] at hp
    rcases List.mem_cons.mp hp with h1 | h1
    · simp [h1]
    · exact allFilePaths_ne_nil rest p h1
  | FsEntry.dir n cs :: rest =>
    intro p hp
    rw [allFilePaths] at hp
    rcases List.mem_append.mp hp with h1 | h1
    · obtain ⟨q, _, hq⟩ := List.mem_map.mp h1
      simp [← hq]
    · exact allFilePaths_ne_nil rest p h1
termination_by sizeOf es
decreasing_by
  all_goals simp_wf

/-- `goodPath` on a non-empty path with one more leading directory. -/
theorem goodPath_cons (n : String) (p : List String) (h : p ≠ []) :
    goodPath (n :: p) = (decide (n ≠ vendorFolderName) && goodPath p) := by
  match p with
  | [] => exact absurd rfl h
  | q :: qs => rfl

/-- Filtering `goodPath` through a directory prefix: vendor kills the whole
subtree, any other name passes through. -/
theorem filter_goodPath_map_cons (n : String) (l : List (List String))
    (h : ∀ p ∈ l, p ≠ []) :
    (l.map (fun p => n :: p)).filter goodPath
      = if n = vendorFolderName then []
        else (l.filter goodPath).map (fun p => n :: p) := by
  induction l with
  | nil => simp
  | cons p rest ih =>
    have hp : p ≠ [] := h p (List.mem_cons_self _ _)
    have hrest := ih (fun q hq => h q (List.mem_cons_of_mem _ hq))
    by_cases hv : n = vendorFolderName
    · simp only [hv, if_pos rfl] at hrest ⊢
      simp only [List.map_cons, List.filter_cons, goodPath_cons _ _ hp]
      simp [hrest]
    · simp only [if_neg hv] at hrest ⊢
      simp only [List.map_cons, List.filter_cons, goodPath_cons _ _ hp]
      by_cases hg : goodPath p
      · simp [hg, hv, hrest]
      · simp [hg, hv, hrest]

/-- C10: the scanner's output is exactly the list of regular-file paths
whose final component ends in `.go` and whose directory components never
pass through a folder named `vendor` — every non-`.go` file is silently
dropped, in addition to the vendor exclusion. -/
theorem getAllSourceFiles_exactly_go_files (es : List FsEntry) :
    getAllSourceFiles es = (allFilePaths es).filter goodPath := by
  match es with
  | [] => simp [getAllSourceFiles, allFilePaths]
  | FsEntry.file n :: rest =>
    rw [getAllSourceFiles, allFilePaths, getAllSourceFiles_exactly_go_files rest,
      List.filter_cons]
    by_cases hg : goHasSuffix n ".go"
    · simp [hg, goodPath]
    · simp [hg, goodPath]
  | FsEntry.dir n cs :: rest =>
    rw [getAllSourceFiles, allFilePaths, getAllSourceFiles_exactly_go_files rest,
      getAllSourceFiles_exactly_go_files cs, List.filter_append,
      filter_goodPath_map_cons n _ (allFilePaths_ne_nil cs)]
termination_by sizeOf es
decreasing_by
  all_goals simp_wf
  all_goals omega

/-! ## C6 — lockfile codec round-trip -/

mutual

/-- Decoding an encoded entry recovers it exactly: non-empty fields
round-trip through their emitted key, empty optional fields are omitted by
`omitempty` and come back as the zero value `""`. -/
theorem decodeEntry_encodeEntry (e : bpmEntry) : decodeEntry (encodeEntry e) = some e := by
  match e with
  | bpmEntry.mk u b c ds =>
    have hd := decodeDeps_encodeDeps ds
    rw [encodeEntry, decodeEntry]
    by_cases hu : u = "" <;> by_cases hb : b = "" <;> by_cases hc : c = "" <;>
      simp [optField, hu, hb, hc, decodeEntryInto, hd,
        bpmEntry.url, bpmEntry.branch, bpmEntry.commit, bpmEntry.dependencies]
termination_by sizeOf e

/-- Decoding an encoded dependency mapping recovers it exactly. -/
theorem decodeDeps_encodeDeps (ds : List (String × bpmEntry)) :
    decodeDeps (encodeDeps ds) = some ds := by
  match ds with
  | [] => rfl
  | (k, e) :: rest =>
    rw [encodeDeps, decodeDeps, decodeEntry_encodeEntry e, decodeDeps_encodeDeps rest]
termination_by sizeOf ds

end

/-- C6: the lockfile codec round-trips every dependency graph — decoding the
encoded document yields the original graph, every non-empty field preserved
and every omitted empty optional field decoded back to the empty string. -/
theorem decodePackage_encodePackage (p : bpmPackage) :
    decodePackage (encodePackage p) = some p := by
  match p with
  | bpmPackage.mk pk ds =>
    rw [encodePackage, decodePackage]
    simp [decodePackageInto, decodeDeps_encodeDeps,
      bpmPackage.package, bpmPackage.dependencies]

/-! ## C1 — idempotence of reconciliation -/

/-- C1 counterexample: an entry pinning commit `bbb` while the checked-out
branch tip (and HEAD) is `aaa`.  Because `checkoutCommit` runs
`git checkout <commit> .`, which restores paths without moving HEAD, the
second reconciliation run still observes HEAD `aaa ≠ bbb` and performs
`checkoutCommit` again — refuting "performs no checkoutBranch or
checkoutCommit operations on the second run". -/
theorem pullRepo_second_run_checkout :
    (pullRepoTwice cexEntry cexRepo).2.2 = [GitOp.coCommit "bbb"] ∧
    (pullRepoTwice cexEntry cexRepo).2.2 ≠ [] := by
  refine ⟨rfl, ?_⟩
  decide

/-- C1 (amended): the second reconciliation run always leaves the entry's
branch and commit fields unchanged and leaves the repository state fixed,
and it performs no checkout operations if and only if the entry's pinned
commit agrees with the repository's HEAD commit after the first run; when
they differ (the pinned commit is not the branch tip), `checkoutCommit` —
which never moves HEAD — is repeated on every run. -/
theorem pullRepo_second_run_fixed (e : PullEntry) (s : RepoState) :
    (pullRepoTwice e s).1 = (pullRepo e s).1 ∧
    (pullRepoTwice e s).2.1 = (pullRepo e s).2.1 ∧
    ((pullRepoTwice e s).2.2 = [] ↔ (pullRepo e s).2.1.head = (pullRepo e s).1.commit) := by
  obtain ⟨u, eb, ec⟩ := e
  obtain ⟨sb, sh, tip, wt⟩ := s
  by_cases hA : eb = ""
  · subst hA
    by_cases hC : ec = ""
    · subst hC
      simp [pullRepoTwice, pullRepo, checkoutBranch, checkoutCommit]
    · by_cases hD : sh = ec
      · simp [pullRepoTwice, pullRepo, checkoutBranch, checkoutCommit, hC, hD]
      · simp [pullRepoTwice, pullRepo, checkoutBranch, checkoutCommit, hC, hD]
  · by_cases hB : sb = eb
    · subst hB
      by_cases hC : ec = ""
      · subst hC
        simp [pullRepoTwice, pullRepo, checkoutBranch, checkoutCommit, hA]
      · by_cases hD : sh = ec
        · simp [pullRepoTwice, pullRepo, checkoutBranch, checkoutCommit, hA, hC, hD]
        · simp [pullRepoTwice, pullRepo, checkoutBranch, checkoutCommit, hA, hC, hD]
    · by_cases hC : ec = ""
      · subst hC
        simp [pullRepoTwice, pullRepo, checkoutBranch, checkoutCommit, hA, hB]
      · by_cases hD : tip eb = ec
        · simp [pullRepoTwice, pullRepo, checkoutBranch, checkoutCommit, hA, hB, hC, hD]
        · simp [pullRepoTwice, pullRepo, checkoutBranch, checkoutCommit, hA, hB, hC, hD]

/-! ## C2 — reconciliation recursion order -/

/-- Every event of a trace rooted at `pre` strictly extends `pre`. -/
theorem pullPackagesTrace_mem_shape (deps : List (String × bpmEntry)) (pre : List String) :
    ∀ q ∈ pullPackagesTrace pre deps, ∃ r, q = pre ++ r ∧ r ≠ [] := by
  match deps with
  | [] => simp [pullPackagesTrace]
  | (pkg, bpmEntry.mk u b c ds) :: rest =>
    intro q hq
    rw [pullPackagesTrace] at hq
    rcases List.mem_cons.mp hq with h1 | h1
    · exact ⟨[pkg], h1, by simp⟩
    · rcases List.mem_append.mp h1 with h2 | h2
      · obtain ⟨r, hr, hrne⟩ := pullPackagesTrace_mem_shape ds (pre ++ [pkg]) q h2
        exact ⟨[pkg] ++ r, by simp [hr], by simp⟩
      · exact pullPackagesTrace_mem_shape rest pre q h2
termination_by sizeOf deps
decreasing_by
  all_goals simp_wf
  all_goals omega

/-- Generalisation of the parent-before-child ordering to an arbitrary
root path `pre`. -/
theorem pullPackagesTrace_parent_gen (deps : List (String × bpmEntry))
    (pre : List String) (l1 : List (List String)) (q : List String)
    (l2 : List (List String))
    (heq : pullPackagesTrace pre deps = l1 ++ q :: l2)
    (hlen : pre.length + 2 ≤ q.length) :
    q.dropLast ∈ l1 := by
  match deps with
  | [] =>
    rw [pullPackagesTrace] at heq
    exact absurd heq.symm (by simp)
  | (pkg, bpmEntry.mk u b c ds) :: rest =>
    rw [pullPackagesTrace] at heq
    cases l1 with
    | nil =>
      simp only [List.nil_append] at heq
      injection heq with h1 h2
      rw [← h1] at hlen
      simp at hlen
    | cons a l1' =>
      simp only [List.cons_append] at heq
      injection heq with h1 h2
      rcases List.append_eq_append_iff.mp h2 with ⟨a', ha1, ha2⟩ | ⟨c', hc1, hc2⟩
      · have hin := pullPackagesTrace_parent_gen rest pre a' q l2 ha2 hlen
        rw [ha1]
        exact List.mem_cons_of_mem _ (List.mem_append_right _ hin)
      · cases c' with
        | nil =>
          simp only [List.nil_append] at hc2
          have hin := pullPackagesTrace_parent_gen rest pre [] q l2 hc2.symm hlen
          simp at hin
        | cons q0 c'' =>
          simp only [List.cons_append] at hc2
          injection hc2 with hq0 hl2
          subst hq0
          have hqmem : q ∈ pullPackagesTrace (pre ++ [pkg]) ds := by
            rw [hc1]
            exact List.mem_append_right _ (List.mem_cons_self _ _)
          obtain ⟨r, hqr, hrne⟩ := pullPackagesTrace_mem_shape ds (pre ++ [pkg]) q hqmem
          match r, hqr, hrne with
          | [], _, hrne => exact absurd rfl hrne
          | [x], hqr, _ =>
            rw [hqr, List.dropLast_concat, h1]
            exact List.mem_cons_self _ _
          | x :: y :: r', hqr, _ =>
            have hlen2 : (pre ++ [pkg]).length + 2 ≤ q.length := by
              rw [hqr]
              simp
              omega
            have hin := pullPackagesTrace_parent_gen ds (pre ++ [pkg]) l1' q c'' hc1 hlen2
            exact List.mem_cons_of_mem _ hin
termination_by sizeOf deps
decreasing_by
  all_goals simp_wf
  all_goals omega

/-- C2 counterexample: with sibling `a` (whose child is `c`) joined before
sibling `b`, the reconciler recurses into `a`'s nested dependencies before
`b`'s pinning is joined — the trace is `[a], [a,c], [b]`, so the claimed
"join all siblings of a level before recursing into any entry's children"
is violated. -/
theorem pullPackages_interleaves_recursion :
    levelJoinedFirst (pullPackagesTrace [] cexDeps) = false := by
  simp [pullPackagesTrace, cexDeps, levelJoinedFirst]

/-- C2 (amended): the reconciler recurses into an entry's nested
dependencies immediately after joining that entry — so in every join order
each nested event is preceded in the trace by its own parent's event
(depth-first order per entry holds), but not necessarily by all of the
parent's siblings. -/
theorem pullPackages_nested_after_parent (deps : List (String × bpmEntry))
    (l1 : List (List String)) (q : List String) (l2 : List (List String))
    (heq : pullPackagesTrace [] deps = l1 ++ q :: l2) (hlen : 2 ≤ q.length) :
    q.dropLast ∈ l1 :=
  pullPackagesTrace_parent_gen deps [] l1 q l2 heq (by simpa using hlen)

/-- C2 witness: in the trace of `cexDeps`, the nested event `[a, c]` is
preceded by its parent `[a]`. -/
theorem pullPackages_nested_after_parent_witness :
    (["a", "c"] : List String).dropLast ∈ [[("a" : String)]] :=
  pullPackages_nested_after_parent cexDeps [["a"]] ["a", "c"] [["b"]]
    (by simp [pullPackagesTrace, cexDeps]) (by decide)

end Bpm
